import Mathlib

/-
Verification of the AdForge backend (Express server, `backend/server.js`).

The definitions below are a shallow embedding of the JavaScript source.
Strings are modelled as `List Char`; machine floats used for durations are
modelled as `ℚ` (the arithmetic performed by the code is exact on the
inputs of interest); the file system is modelled as a list of abstract
file tags; external capabilities (OpenAI calls, FFmpeg invocations) are
modelled as oracle parameters.
-/

namespace AdForge

/-! ## Script sanitizer (`cleanScript`, src/unnamed/part_001 lines 339-356)

The JavaScript body is

  cleaned = cleaned.replace(/\[.*?\]/g, '')
  cleaned = cleaned.replace(/\*\*/g, '')
  cleaned = cleaned.replace(/\n{3,}/g, '\n\n')
  cleaned = cleaned.trim()
-/

/-- ASCII whitespace removed by JavaScript `String.prototype.trim`
(space, tab, newline, carriage return, vertical tab, form feed). -/
def isJsSpace (c : Char) : Bool :=
  c = ' ' || c = '\t' || c = '\n' || c = '\r' || c = Char.ofNat 11 || c = Char.ofNat 12

/-- Does a `]` occur before any newline?  In `replace(/\[.*?\]/g, '')` the
lazy `.` does not match `\n`, so a `[` starts a match exactly when a `]`
occurs later on the same line. -/
def hasRB : List Char → Bool
  | [] => false
  | c :: t => if c = '\n' then false else if c = ']' then true else hasRB t

/-- One pass of `replace(/\[.*?\]/g, '')`: scanning left to right, a `[`
with a `]` later on the same line is removed together with everything up
to and including the first such `]`.  The Bool argument records whether
the scanner is currently inside a bracket match. -/
def rbGo : Bool → List Char → List Char
  | _, [] => []
  | true, c :: t => if c = ']' then rbGo false t else rbGo true t
  | false, c :: t =>
    if c = '[' ∧ hasRB t = true then rbGo true t else c :: rbGo false t

/-- `cleaned.replace(/\[.*?\]/g, '')`. -/
def removeBrackets (l : List Char) : List Char := rbGo false l

/-- `cleaned.replace(/\*\*/g, '')`: non-overlapping left-to-right removal
of adjacent pairs of asterisks. -/
def removeStars : List Char → List Char
  | a :: b :: t =>
    if a = '*' ∧ b = '*' then removeStars t else a :: removeStars (b :: t)
  | l => l

/-- Replacement text emitted for a pending run of `k` newlines: a run of
three or more newlines becomes exactly two (`/\n{3,}/g` → `"\n\n"`),
shorter runs are kept as they are. -/
def emitNl (k : ℕ) (rest : List Char) : List Char :=
  (if 3 ≤ k then ['\n', '\n'] else List.replicate k '\n') ++ rest

/-- Scanner for `replace(/\n{3,}/g, '\n\n')`; `k` counts the newlines of
the run currently being read. -/
def cnGo : ℕ → List Char → List Char
  | k, [] => emitNl k []
  | k, c :: t => if c = '\n' then cnGo (k + 1) t else emitNl k (c :: cnGo 0 t)

/-- `cleaned.replace(/\n{3,}/g, '\n\n')`. -/
def collapseNewlines (l : List Char) : List Char := cnGo 0 l

/-- Remove trailing JavaScript whitespace (the right half of `trim()`). -/
def trimRight : List Char → List Char
  | [] => []
  | c :: t =>
    match trimRight t with
    | [] => if isJsSpace c then [] else [c]
    | r => c :: r

/-- JavaScript `String.prototype.trim`: strip whitespace at both ends. -/
def jsTrim (l : List Char) : List Char := trimRight (l.dropWhile isJsSpace)

/-- `cleanScript` from src/unnamed/part_001 lines 339-356: remove bracket
directions, then markdown bold markers, then collapse runs of three or
more newlines, then trim. -/
def cleanScript (l : List Char) : List Char :=
  jsTrim (collapseNewlines (removeStars (removeBrackets l)))

/-- String-level wrapper for `cleanScript`. -/
def cleanScriptStr (s : String) : String := String.mk (cleanScript s.data)

/-! ## Duration estimates (src/unnamed/part_001 lines 399-405 and 453-457) -/

/-- `Math.ceil(n / 15)` for a natural `n`. -/
def ceil15 (n : ℕ) : ℕ := (n + 14) / 15

/-- `estimatedDuration` in `/api/generate-video` (part_001 line 454):
`Math.max(10, Math.ceil(cleanedScript.length / 15))`. -/
def estimatedDurationGV (script : List Char) : ℕ :=
  max 10 (ceil15 (cleanScript script).length)

/-- `duration` in the `/api/generate-voiceover` response (part_001 line
403): `Math.ceil(script.length / 15)` on the raw script. -/
def voiceoverDuration (script : List Char) : ℕ := ceil15 script.length

/-- `durationPerImage` (part_001 line 455): the estimated duration divided
evenly over the uploaded files. -/
def durationPerImage (script : List Char) (n : ℕ) : ℚ :=
  (estimatedDurationGV script : ℚ) / n

/-- The timing plan implicit in the clip loop (part_001 lines 476-487):
one clip per uploaded file, in upload order, each shown for
`durationPerImage` seconds.  Each pair is (file index, duration). -/
def timingPlan (script : List Char) (n : ℕ) : List (ℕ × ℚ) :=
  (List.range n).map (fun i => (i, durationPerImage script n))

/-! ## Audio-mix stage (src/unnamed/part_001 lines 525-555) -/

/-- `parseInt(s)` in radix 10 on the maximal digit run. -/
def digitsToNat (l : List Char) : ℕ :=
  l.foldl (fun a c => a * 10 + (c.toNat - 48)) 0

/-- Parse the leading decimal digits of `l`; `none` models `NaN`. -/
def parseDigits (l : List Char) : Option ℕ :=
  let ds := l.takeWhile Char.isDigit
  if ds = [] then none else some (digitsToNat ds)

/-- JavaScript `parseInt` (radix 10): skip leading whitespace, optional
sign, then the maximal run of digits; `none` models `NaN`. -/
def parseIntJs (s : String) : Option ℤ :=
  match s.data.dropWhile isJsSpace with
  | '-' :: rest => (parseDigits rest).map (fun n => -(n : ℤ))
  | '+' :: rest => (parseDigits rest).map (fun n => (n : ℤ))
  | rest => (parseDigits rest).map (fun n => (n : ℤ))

/-- JavaScript `x || 15` applied to the result of `parseInt(musicVolume)`:
`NaN` (here `none`) and `0` are falsy and yield the default `15`. -/
def jsOr15 : Option ℤ → ℤ
  | none => 15
  | some v => if v = 0 then 15 else v

/-- `volumeDecimal = (parseInt(musicVolume) || 15) / 100` (part_001 line
541); `musicVolume` is the raw request field, absent or a string. -/
def volumeDecimal (musicVolume : Option String) : ℚ :=
  ((jsOr15 (musicVolume.bind parseIntJs) : ℤ) : ℚ) / 100

/-- `musicFiles[music] || 'upbeat.mp3'` (part_001 lines 530-537). -/
def musicFileFor (m : String) : String :=
  if m = "upbeat" then "upbeat.mp3"
  else if m = "corporate" then "corporate.mp3"
  else if m = "calm" then "calm.mp3"
  else if m = "inspiring" then "inspiring.mp3"
  else "upbeat.mp3"

/-- The shape of the `ffmpegAddAudio` command string built in part_001
lines 525-555.  `mixMusic path g fadeStart vg` stands for the command with
a looped music input and filtergraph
`[1:a]volume=g,afade=t=out:st=fadeStart:d=3[music];[2:a]volume=vg[voice];[music][voice]amix=...`;
`voiceOnly` stands for
`ffmpeg -i video -i voiceover -c:v copy -c:a aac -shortest out`, which has
no music input and no volume/afade/amix filter. -/
inductive AudioCmd where
  | mixMusic (musicFile : String) (musicGain : ℚ) (fadeOutStart : ℤ) (voiceGain : ℚ)
  | voiceOnly
deriving DecidableEq

/-- The audio-mix branch of `/api/generate-video` (part_001 lines
525-555).  `music` is the raw request field (absent or a string; the empty
string is falsy in `music && music !== 'none'`), `musicExists` is the
`fs.existsSync` oracle on the selected music file, `musicVolume` the raw
volume field, `estimatedDuration` the total duration in seconds. -/
def buildAudioCmd (music : Option String) (musicExists : String → Bool)
    (musicVolume : Option String) (estimatedDuration : ℤ) : AudioCmd :=
  match music with
  | some m =>
    if m ≠ "" ∧ m ≠ "none" then
      if musicExists (musicFileFor m) then
        .mixMusic (musicFileFor m) (volumeDecimal musicVolume)
          (estimatedDuration - 3) 1
      else
        .voiceOnly
    else
      .voiceOnly
  | none => .voiceOnly

/-! ## Vision retry loop (src/unnamed/part_001 lines 173-216) and the
single-shot `/api/generate-script` handler (lines 262-315) -/

/-- One run of the retry `for` loop of `/api/analyze-image`: `call a` is
the outcome of the OpenAI vision call on attempt number `a`; on failure
with `a < retries` the code sleeps `1000 * a` milliseconds and retries.
Returns (final outcome, executed wait times in ms, number of calls). -/
def retryGo (call : ℕ → Except String String) (retries : ℕ) :
    List ℕ → Except String String × List ℕ × ℕ
  | [] => (.error "no attempt", [], 0)
  | a :: rest =>
    match call a with
    | .ok r => (.ok r, [], 1)
    | .error e =>
      if a < retries then
        let (res, ws, cs) := retryGo call retries rest
        (res, 1000 * a :: ws, cs + 1)
      else
        (.error e, [], 1)

/-- The retry loop with `retries = 3` over attempts 1, 2, 3
(part_001 lines 175-216). -/
def visionRetry (call : ℕ → Except String String) :
    Except String String × List ℕ × ℕ :=
  retryGo call 3 (List.range' 1 3)

/-- String-level trim, used for `userScript.trim()` and
`response.choices[0].message.content.trim()`. -/
def jsTrimStr (s : String) : String := String.mk (jsTrim s.data)

/-- The `/api/generate-script` handler (part_001 lines 262-315):
if `userScript && userScript.trim()` is truthy the user script is returned
unchanged with no model call; otherwise the drafting capability is called
exactly once and its outcome (trimmed on success) is returned.  The second
component counts calls to the drafting capability. -/
def generateScriptHandler (userScript : Option String)
    (draft : Except String String) : Except String String × ℕ :=
  match userScript with
  | some us =>
    if us ≠ "" ∧ jsTrimStr us ≠ "" then
      (.ok us, 0)
    else
      match draft with
      | .ok s => (.ok (jsTrimStr s), 1)
      | .error e => (.error e, 1)
  | none =>
    match draft with
    | .ok s => (.ok (jsTrimStr s), 1)
    | .error e => (.error e, 1)

/-! ## File lifecycle of a `/api/generate-video` run
(src/unnamed/part_001 lines 417-615) -/

/-- The files a run can create: the multer uploads, the voiceover mp3, the
per-image clip mp4s, the concat manifest, the silent concatenated video,
and the final video. -/
inductive TempFile where
  | upload (i : ℕ)
  | voiceover
  | clip (i : ℕ)
  | concatManifest
  | videoNoAudio
  | finalVideo
deriving DecidableEq

/-- The external calls the run awaits, in order: the TTS call, one FFmpeg
invocation per clip, the concat invocation, the audio-mix invocation. -/
inductive PipeStep where
  | tts
  | ffmpegClip (i : ℕ)
  | ffmpegConcat
  | ffmpegAudio
deriving DecidableEq

def isUpload : TempFile → Bool
  | .upload _ => true
  | _ => false

/-- The catch handler of `/api/generate-video` (part_001 lines 596-614):
it deletes `req.files` (the uploaded images) and nothing else. -/
def catchCleanup (disk : List TempFile) : List TempFile :=
  disk.filter (fun f => !isUpload f)

/-- The uploads present when the handler starts (multer has saved
`req.files`). -/
def uploadsDisk (n : ℕ) : List TempFile := (List.range n).map TempFile.upload

/-- The clip loop (part_001 lines 476-487): for each index an FFmpeg call;
on success the clip file appears, on failure `execPromise` rejects and the
surrounding try/catch takes over with the disk as it is. -/
def clipLoop (ok : ℕ → Bool) (disk : List TempFile) :
    List ℕ → Except (List TempFile) (List TempFile)
  | [] => .ok disk
  | i :: rest =>
    if ok i then clipLoop ok (disk ++ [.clip i]) rest else .error disk

/-- The whole `/api/generate-video` handler as a disk transformer
(part_001 lines 417-615).  `ok` tells which external calls succeed.
Returns (success flag, files remaining on disk when the response is
sent).  On the success path the code deletes the clips and manifest after
concatenation and the silent video, voiceover and uploads at the end; on
any failure the catch handler deletes only the uploads. -/
def runVideo (n : ℕ) (ok : PipeStep → Bool) : Bool × List TempFile :=
  let disk0 := uploadsDisk n
  if ok .tts then
    let disk1 := disk0 ++ [.voiceover]
    match clipLoop (fun i => ok (.ffmpegClip i)) disk1 (List.range n) with
    | .error d => (false, catchCleanup d)
    | .ok disk2 =>
      let disk3 := disk2 ++ [.concatManifest]
      if ok .ffmpegConcat then
        let disk4 := disk3 ++ [.videoNoAudio]
        let disk5 := disk4.filter
          (fun f => !(match f with | .clip _ => true | .concatManifest => true | _ => false))
        if ok .ffmpegAudio then
          let disk6 := disk5 ++ [.finalVideo]
          (true, disk6.filter
            (fun f => !(match f with
              | .videoNoAudio => true | .voiceover => true | .upload _ => true
              | _ => false)))
        else
          (false, catchCleanup disk5)
      else
        (false, catchCleanup disk3)
  else
    (false, catchCleanup disk0)

/-- Oracle under which every call succeeds except the FFmpeg invocation
for clip `i`. -/
def failClipAt (i : ℕ) : PipeStep → Bool :=
  fun s => !(s = PipeStep.ffmpegClip i : Bool)

/-! ## Keyword timing allocator
(`segmentScriptAndMatchImages`, the server variant embedded in
src/backend/music/GET_MUSIC.md, lines 508-611 of that file) -/

/-- An uploaded file, identified by its original name. -/
structure UploadFile where
  originalname : String
deriving DecidableEq

/-- ASCII `toLowerCase`. -/
def jsToLower (c : Char) : Char :=
  if 'A' ≤ c ∧ c ≤ 'Z' then Char.ofNat (c.toNat + 32) else c

/-- `analysis[fileName] || {}` then `.category || 'unknown'`: look the file
name up in the (parsed) image-analysis map and fall back to `"unknown"`. -/
def categoryOf (analysis : List (String × String)) (fileName : String) : String :=
  match analysis.find? (fun p => p.1 = fileName) with
  | some p => if p.2 = "" then "unknown" else p.2
  | none => "unknown"

/-- Insert a file into the category groups, preserving JavaScript object
insertion order: an existing category keeps its place and appends the
file, a new category is added at the end. -/
def addToGroups (groups : List (String × List UploadFile)) (cat : String)
    (f : UploadFile) : List (String × List UploadFile) :=
  match groups with
  | [] => [(cat, [f])]
  | (c, fs) :: rest =>
    if c = cat then (c, fs ++ [f]) :: rest else (c, fs) :: addToGroups rest cat f

/-- `imagesByCategory` (GET_MUSIC.md lines 534-544): group the files by
their analysis category, in first-seen order. -/
def groupByCategory (files : List UploadFile)
    (analysis : List (String × String)) : List (String × List UploadFile) :=
  files.foldl (fun gs f => addToGroups gs (categoryOf analysis f.originalname) f) []

/-- The fixed `categoryKeywords` table (GET_MUSIC.md lines 525-531). -/
def categoryKeywords (c : String) : Option (List String) :=
  if c = "exterior" then
    some ["exterior", "outside", "front", "entrance", "pool", "backyard",
      "outdoor", "property", "home exterior"]
  else if c = "living-room" then
    some ["living room", "living area", "family room", "lounge"]
  else if c = "kitchen" then
    some ["kitchen", "cook", "appliances", "granite", "countertop", "dining"]
  else if c = "bedroom" then
    some ["bedroom", "sleep", "rest", "sanctuary", "retreat", "master bedroom"]
  else if c = "bathroom" then
    some ["bathroom", "bath", "shower", "vanity", "tub"]
  else none

/-- `category.replace('-', ' ')`: JavaScript `replace` with a string
pattern replaces only the first occurrence. -/
def replaceFirstDash : List Char → List Char
  | [] => []
  | c :: t => if c = '-' then ' ' :: t else c :: replaceFirstDash t

/-- `categoryKeywords[category] || [category.replace('-', ' ')]`
(GET_MUSIC.md line 554). -/
def keywordsFor (c : String) : List String :=
  (categoryKeywords c).getD [String.mk (replaceFirstDash c.data)]

/-- First index `≥ i` at which `needle` occurs in the remaining hay `l`
(`String.prototype.indexOf(needle, i)`; `none` models `-1`). -/
def findIdx (needle : List Char) : ℕ → List Char → Option ℕ
  | i, [] => if needle = [] then some i else none
  | i, c :: t =>
    if needle.isPrefixOf (c :: t) then some i else findIdx needle (i + 1) t

/-- The occurrence loop of GET_MUSIC.md lines 556-563: repeatedly
`indexOf(keyword, pos)`, stepping `pos` past each hit.  `fuel` bounds the
number of iterations (the hay length plus one suffices for non-empty
needles). -/
def occLoop (hay needle : List Char) : ℕ → ℕ → List ℕ
  | 0, _ => []
  | fuel + 1, start =>
    match findIdx needle start (hay.drop start) with
    | none => []
    | some p => p :: occLoop hay needle fuel (p + needle.length)

/-- All hit positions of `needle` in `hay` as produced by the JS loop. -/
def keywordOccs (hay needle : List Char) : List ℕ :=
  occLoop hay needle (hay.length + 1) 0

/-- Fold the hits of all keywords into
(`earliestPosition`, `latestPosition`), starting from the sentinels
`999999` and `-1` (GET_MUSIC.md lines 550-563). -/
def scanKeywords (scriptLower : List Char) (kws : List (List Char)) : ℕ × ℤ :=
  kws.foldl
    (fun acc kw =>
      (keywordOccs scriptLower kw).foldl
        (fun a p => (min a.1 p, max a.2 ((p : ℤ) + kw.length))) acc)
    (999999, -1)

/-- One script segment: a category, its images, and the character window
of the script where the category's keywords occur. -/
structure Segment where
  category : String
  images : List UploadFile
  startPos : ℕ
  endPos : ℤ
deriving DecidableEq

/-- Build the segment of one category group (GET_MUSIC.md lines 549-577):
if no keyword occurs, the window is placed at the very end of the
script. -/
def mkSegment (scriptLower : List Char) (totalChars : ℕ) (cat : String)
    (imgs : List UploadFile) : Segment :=
  let kws := (keywordsFor cat).map String.data
  let sc := scanKeywords scriptLower kws
  if sc.1 = 999999 then
    { category := cat, images := imgs, startPos := totalChars,
      endPos := (totalChars : ℤ) }
  else
    { category := cat, images := imgs, startPos := sc.1, endPos := sc.2 }

/-- Stable insertion of a segment: it goes before the first segment with a
start position that is not smaller (JavaScript `Array.prototype.sort` is
stable). -/
def insertSeg (x : Segment) : List Segment → List Segment
  | [] => [x]
  | y :: t =>
    if y.startPos < x.startPos then y :: insertSeg x t else x :: y :: t

/-- `segments.sort((a, b) => a.startPos - b.startPos)` (GET_MUSIC.md line
580), as a stable sort by start position. -/
def sortSegs : List Segment → List Segment
  | [] => []
  | x :: t => insertSeg x (sortSegs t)

/-- `Math.ceil` of an integer divided by 15. -/
def ceil15Z (a : ℤ) : ℤ := (a + 14) / 15

/-- `Math.max(3, Math.ceil(seg.charLength / 15))` (GET_MUSIC.md line
592). -/
def segDuration (seg : Segment) : ℚ :=
  ((max 3 (ceil15Z (seg.endPos - (seg.startPos : ℤ))) : ℤ) : ℚ)

/-- `segmentScriptAndMatchImages(files, script, imageAnalysis)`
(GET_MUSIC.md lines 508-611).  `analysis = none` models an absent or
unparsable `imageAnalysis` payload, for which the files are returned in
upload order with `durations: null`.  Otherwise the files are grouped by
category, each category is windowed by its earliest/latest keyword hit in
the lower-cased script, the segments are stably sorted by start position,
and each image of a segment receives an equal share of the segment
duration. -/
def segmentScriptAndMatchImages (files : List UploadFile) (script : String)
    (analysis : Option (List (String × String))) :
    List UploadFile × Option (List ℚ) :=
  match analysis with
  | none => (files, none)
  | some an =>
    let scriptLower := script.data.map jsToLower
    let totalChars := script.data.length
    let groups := groupByCategory files an
    let segs := groups.map (fun g => mkSegment scriptLower totalChars g.1 g.2)
    let sorted := sortSegs segs
    (sorted.flatMap (fun seg => seg.images),
     some (sorted.flatMap
       (fun seg => seg.images.map (fun _ => segDuration seg / (seg.images.length : ℚ)))))

/-! ## Supporting lemmas for the pipeline file lifecycle -/

theorem clipLoop_all_fail (i : ℕ) :
    ∀ (k a : ℕ) (disk : List TempFile), a ≤ i → i < a + k →
      clipLoop (fun j => !(j = i : Bool)) disk (List.range' a k) =
        .error (disk ++ (List.range' a (i - a)).map TempFile.clip) := by
  intro k
  induction k with
  | zero => intro a disk h1 h2; omega
  | succ k ih =>
    intro a disk h1 h2
    rw [List.range'_succ]
    by_cases hai : a = i
    · subst hai
      simp [clipLoop]
    · have ha : a < i := lt_of_le_of_ne h1 hai
      have step : clipLoop (fun j => !(j = i : Bool)) disk (a :: List.range' (a + 1) k) =
          clipLoop (fun j => !(j = i : Bool)) (disk ++ [TempFile.clip a])
            (List.range' (a + 1) k) := by
        simp [clipLoop, hai]
      rw [step, ih (a + 1) (disk ++ [TempFile.clip a]) (by omega) (by omega)]
      have hr : List.range' a (i - a) = a :: List.range' (a + 1) (i - (a + 1)) := by
        have : i - a = (i - (a + 1)) + 1 := by omega
        rw [this, List.range'_succ]
      rw [hr]
      simp

theorem filter_uploads_nil (m : ℕ) :
    (uploadsDisk m).filter (fun f => !isUpload f) = [] := by
  induction m with
  | zero => simp [uploadsDisk]
  | succ m ih =>
    simp only [uploadsDisk, List.range_succ, List.map_append, List.filter_append] at *
    simp [ih, isUpload]

theorem filter_clips_id (xs : List ℕ) :
    (xs.map TempFile.clip).filter (fun f => !isUpload f) = xs.map TempFile.clip := by
  induction xs with
  | nil => simp
  | cons x t ih => simp [isUpload, ih]

/-! ## Claim theorems: C1 -/

/-- C1 counterexample: a run of two images in which the FFmpeg call for
the second clip fails does not delete the voiceover file or the first
clip; the error path leaves a non-empty residue, contradicting the claim
that every temporary file is deleted on every failure exit path. -/
theorem c1_failure_cleanup_counterexample :
    (runVideo 2 (failClipAt 1)).2 = [TempFile.voiceover, TempFile.clip 0] ∧
    (runVideo 2 (failClipAt 1)).2 ≠ [] := by
  exact ⟨by decide, by decide⟩

/-- C1 (amended): on a clip-construction failure the catch handler of
`/api/generate-video` deletes only the original uploaded assets; the
voiceover file and every clip built so far remain on disk.  Uploaded
assets are deleted on every exit path. -/
theorem c1_failure_cleanup :
    (∀ n i, i < n →
      runVideo n (failClipAt i) =
        (false, TempFile.voiceover :: (List.range i).map TempFile.clip)) ∧
    (∀ n (ok : PipeStep → Bool) j, TempFile.upload j ∉ (runVideo n ok).2) := by
  constructor
  · intro n i hin
    have htts : failClipAt i PipeStep.tts = true := by simp [failClipAt]
    have hfun : (fun j => failClipAt i (PipeStep.ffmpegClip j)) =
        (fun j => !(j = i : Bool)) := by
      funext j
      simp [failClipAt]
    have hrange : List.range n = List.range' 0 n := by
      simp [List.range_eq_range']
    simp only [runVideo, htts, if_true, hfun, hrange]
    rw [clipLoop_all_fail i n 0 (uploadsDisk n ++ [TempFile.voiceover]) (by omega) (by omega)]
    simp only [Nat.sub_zero]
    have : List.range' 0 i = List.range i := by simp [List.range_eq_range']
    rw [this]
    simp [catchCleanup, List.filter_append, filter_uploads_nil, filter_clips_id]
    exact ⟨rfl, fun a _ => rfl⟩
  · intro n ok j hmem
    simp only [runVideo] at hmem
    split at hmem
    · split at hmem
      · simp [catchCleanup, List.mem_filter, isUpload] at hmem
      · split at hmem
        · split at hmem
          · simp [List.mem_filter] at hmem
          · simp [catchCleanup, List.mem_filter, isUpload] at hmem
        · simp [catchCleanup, List.mem_filter, isUpload] at hmem
    · simp [catchCleanup, List.mem_filter, isUpload] at hmem

/-- Witness for `c1_failure_cleanup` at the concrete run of the
counterexample. -/
theorem c1_failure_cleanup_witness :
    (1 < 2 ∧
      runVideo 2 (failClipAt 1) =
        (false, TempFile.voiceover :: (List.range 1).map TempFile.clip)) ∧
    TempFile.upload 0 ∉ (runVideo 2 (failClipAt 1)).2 :=
  ⟨⟨by decide, c1_failure_cleanup.1 2 1 (by decide)⟩,
    c1_failure_cleanup.2 2 (failClipAt 1) 0⟩

/-! ## Claim theorems: C3 -/

/-- The script of claim C3. -/
def c3Script : String :=
  "Our beautiful kitchen features granite counters. The bedroom is a peaceful retreat."

/-- The image-analysis payload of claim C3: one kitchen asset, one
bedroom asset. -/
def c3Analysis : List (String × String) :=
  [("kitchen.jpg", "kitchen"), ("bedroom.jpg", "bedroom")]

/-- C3: on the script of the claim, the timing allocator orders the
kitchen asset before the bedroom asset — and it does so whichever way the
two assets are uploaded, because the kitchen keyword occurs earlier in
the lower-cased script and segments are sorted by earliest offset with a
stable tie-break. -/
theorem c3_kitchen_before_bedroom :
    (segmentScriptAndMatchImages [⟨"kitchen.jpg"⟩, ⟨"bedroom.jpg"⟩]
        c3Script (some c3Analysis)).1 = [⟨"kitchen.jpg"⟩, ⟨"bedroom.jpg"⟩] ∧
    (segmentScriptAndMatchImages [⟨"bedroom.jpg"⟩, ⟨"kitchen.jpg"⟩]
        c3Script (some c3Analysis)).1 = [⟨"kitchen.jpg"⟩, ⟨"bedroom.jpg"⟩] := by
  exact ⟨by decide, by decide⟩

/-! ## Claim theorems: C4 -/

/-- C4 counterexample: for the two-character script `"Hi"` the video
pipeline estimates `max(10, ceil(2/15)) = 10` seconds, not
`ceil(2/15) = 1` second, so the estimate does not equal
`ceil(scriptLength / 15)` for every script. -/
theorem c4_duration_estimate_counterexample :
    estimatedDurationGV ['H', 'i'] = 10 ∧
    ceil15 (['H', 'i'].length) = 1 ∧
    estimatedDurationGV ['H', 'i'] ≠ ceil15 (['H', 'i'].length) := by
  exact ⟨by decide, by decide, by decide⟩

/-- C4 (amended): the video pipeline estimates
`max(10, ceil(cleanedLength / 15))` seconds on the cleaned script, which
coincides with `ceil(cleanedLength / 15)` whenever the cleaned script has
at least 150 characters — in particular a 450-character script unchanged
by cleaning yields exactly 30 seconds. -/
theorem c4_duration_estimate (s : List Char)
    (h : 150 ≤ (cleanScript s).length) :
    estimatedDurationGV s = ceil15 (cleanScript s).length := by
  simp only [estimatedDurationGV, ceil15]
  omega

set_option maxRecDepth 4000 in
/-- Witness for `c4_duration_estimate` at a 450-character script (which
cleaning leaves unchanged): the estimate is `ceil(450/15) = 30`. -/
theorem c4_duration_estimate_witness :
    150 ≤ (cleanScript (List.replicate 450 'a')).length ∧
    estimatedDurationGV (List.replicate 450 'a') =
      ceil15 (cleanScript (List.replicate 450 'a')).length ∧
    estimatedDurationGV (List.replicate 450 'a') = 30 :=
  ⟨by decide, c4_duration_estimate (List.replicate 450 'a') (by decide), by decide⟩

/-! ## Claim theorems: C5 -/

/-- C5: for any script and any positive number of uploaded files, the
timing plan of `/api/generate-video` contains every file index exactly
once in upload order, and the per-file durations (each
`estimatedDuration / fileCount`) sum to exactly the estimated total
speech duration. -/
theorem c5_equal_split_plan (script : List Char) (n : ℕ) (h : 0 < n) :
    ((timingPlan script n).map Prod.fst = List.range n) ∧
    ((timingPlan script n).map Prod.snd).sum = (estimatedDurationGV script : ℚ) := by
  constructor
  · have hfst : (Prod.fst ∘ fun i => ((i, durationPerImage script n) : ℕ × ℚ)) =
        fun i => i := rfl
    rw [timingPlan, List.map_map, hfst, List.map_id']
  · have hn : (n : ℚ) ≠ 0 := by
      exact_mod_cast Nat.pos_iff_ne_zero.mp h
    have hsnd : (Prod.snd ∘ fun i => ((i, durationPerImage script n) : ℕ × ℚ)) =
        fun _ => durationPerImage script n := rfl
    rw [timingPlan, List.map_map, hsnd, List.map_const']
    simp only [List.length_range]
    rw [List.sum_replicate, nsmul_eq_mul, durationPerImage]
    field_simp

/-- Witness for `c5_equal_split_plan` with three files and a short
script. -/
theorem c5_equal_split_plan_witness :
    0 < 3 ∧
    ((timingPlan ['B', 'u', 'y'] 3).map Prod.fst = List.range 3 ∧
      ((timingPlan ['B', 'u', 'y'] 3).map Prod.snd).sum =
        (estimatedDurationGV ['B', 'u', 'y'] : ℚ)) :=
  ⟨by decide, c5_equal_split_plan ['B', 'u', 'y'] 3 (by decide)⟩

/-! ## Claim theorems: C7 -/

/-- C7: if the music selection is absent, or `"none"`, or the selected
music file does not exist on disk, the audio stage builds the
voiceover-only FFmpeg command (no music input, no volume/afade/amix
filter). -/
theorem c7_music_fallback :
    (∀ ex mv d, buildAudioCmd none ex mv d = .voiceOnly) ∧
    (∀ ex mv d, buildAudioCmd (some "none") ex mv d = .voiceOnly) ∧
    (∀ m ex mv d, ex (musicFileFor m) = false →
      buildAudioCmd (some m) ex mv d = .voiceOnly) := by
  refine ⟨fun ex mv d => rfl, fun ex mv d => by simp [buildAudioCmd], ?_⟩
  intro m ex mv d hex
  simp only [buildAudioCmd]
  split
  · rw [hex]
    simp
  · rfl

/-- Witness for `c7_music_fallback`: concrete instances of all three
fallback cases, with a disk on which no music file exists. -/
theorem c7_music_fallback_witness :
    buildAudioCmd none (fun _ => false) none 30 = .voiceOnly ∧
    buildAudioCmd (some "none") (fun _ => false) none 30 = .voiceOnly ∧
    ((fun _ => false) (musicFileFor "upbeat") = false ∧
      buildAudioCmd (some "upbeat") (fun _ => false) none 30 = .voiceOnly) :=
  ⟨c7_music_fallback.1 (fun _ => false) none 30,
    c7_music_fallback.2.1 (fun _ => false) none 30,
    rfl, c7_music_fallback.2.2 "upbeat" (fun _ => false) none 30 rfl⟩

/-! ## Claim theorems: C8 -/

/-- C8 counterexample: when every vision call fails, the retry loop of
`/api/analyze-image` makes 3 calls but executes only the two waits 1000ms
and 2000ms — there is no third 3000ms wait before the request is marked
failed, contradicting the claimed 1s, 2s, 3s schedule. -/
theorem c8_retry_counterexample :
    visionRetry (fun _ => .error "boom") = (.error "boom", [1000, 2000], 3) ∧
    (visionRetry (fun _ => .error "boom")).2.1 ≠ [1000, 2000, 3000] :=
  ⟨rfl, by decide⟩

/-- C8 (amended): the vision call is attempted at most 3 times, with a
`1000 * attempt` millisecond wait after each failed non-final attempt (so
1s then 2s, and no wait after the final failure); the script-drafting
stage is never retried — it calls the model at most once. -/
theorem c8_retry_schedule :
    (∀ call, (visionRetry call).2.2 ≤ 3 ∧
      (visionRetry call).2.1 =
        (List.range' 1 ((visionRetry call).2.2 - 1)).map (fun a => 1000 * a)) ∧
    (∀ us d, (generateScriptHandler us d).2 ≤ 1) := by
  constructor
  · intro call
    cases h1 : call 1 with
    | ok r1 => simp [visionRetry, retryGo, List.range', h1]
    | error e1 =>
      cases h2 : call 2 with
      | ok r2 => simp [visionRetry, retryGo, List.range', h1, h2]
      | error e2 =>
        cases h3 : call 3 with
        | ok r3 => simp [visionRetry, retryGo, List.range', h1, h2, h3]
        | error e3 => simp [visionRetry, retryGo, List.range', h1, h2, h3]
  · intro us d
    cases us with
    | none => cases d <;> simp [generateScriptHandler]
    | some s =>
      by_cases hs : s ≠ "" ∧ jsTrimStr s ≠ ""
      · simp [generateScriptHandler, hs]
      · cases d <;> simp [generateScriptHandler, hs]

/-! ## Claim theorems: C9 -/

/-- C9: when music is requested and its file exists, the music stream's
gain is the parsed music-volume percent divided by 100 (for any nonzero
parsed value, e.g. 50 → 0.5) while the voiceover is mixed at gain 1; an
absent or unparsable volume falls back to the default 15 percent
(0.15). -/
theorem c9_music_gain :
    (∀ m ex mv d v, m ≠ "" → m ≠ "none" → ex (musicFileFor m) = true →
      parseIntJs mv = some v → v ≠ 0 →
      buildAudioCmd (some m) ex (some mv) d =
        .mixMusic (musicFileFor m) ((v : ℚ) / 100) (d - 3) 1) ∧
    (∀ mv, parseIntJs mv = none → volumeDecimal (some mv) = 15 / 100) ∧
    volumeDecimal none = 15 / 100 := by
  refine ⟨?_, ?_, ?_⟩
  · intro m ex mv d v hm1 hm2 hex hparse hv
    simp only [buildAudioCmd, hm1, hm2, and_self, if_true, hex, ne_eq,
      not_false_iff, ite_true]
    have : volumeDecimal (some mv) = (v : ℚ) / 100 := by
      simp [volumeDecimal, hparse, jsOr15, hv]
    simp [this, hm1, hm2]
  · intro mv h
    simp [volumeDecimal, h, jsOr15]
  · simp [volumeDecimal, jsOr15]

/-- Witness for `c9_music_gain`: music `"upbeat"` with volume `"50"`
yields gain `50 / 100 = 0.5`; the unparsable volume `"abc"` yields the
default. -/
theorem c9_music_gain_witness :
    ((("upbeat" : String) ≠ "" ∧ ("upbeat" : String) ≠ "none" ∧
        (fun _ => true) (musicFileFor "upbeat") = true ∧
        parseIntJs "50" = some 50 ∧ (50 : ℤ) ≠ 0) ∧
      buildAudioCmd (some "upbeat") (fun _ => true) (some "50") 30 =
        .mixMusic (musicFileFor "upbeat") ((50 : ℚ) / 100) (30 - 3) 1) ∧
    (parseIntJs "abc" = none ∧ volumeDecimal (some "abc") = 15 / 100) :=
  ⟨⟨⟨by decide, by decide, rfl, by decide, by decide⟩,
      c9_music_gain.1 "upbeat" (fun _ => true) "50" 30 50
        (by decide) (by decide) rfl (by decide) (by decide)⟩,
    by decide, c9_music_gain.2.1 "abc" (by decide)⟩

/-! ## Claim theorems: C10 -/

/-- C10: a `/api/generate-script` request whose `userScript` is non-empty
after trimming is answered with exactly that string, unchanged, and the
drafting model is not called; the model is called (exactly once) only
when `userScript` is absent or blank. -/
theorem c10_user_script_passthrough :
    (∀ us d, us ≠ "" → jsTrimStr us ≠ "" →
      generateScriptHandler (some us) d = (.ok us, 0)) ∧
    (∀ d, (generateScriptHandler none d).2 = 1) ∧
    (∀ us d, us = "" ∨ jsTrimStr us = "" →
      (generateScriptHandler (some us) d).2 = 1) := by
  refine ⟨?_, ?_, ?_⟩
  · intro us d h1 h2
    simp [generateScriptHandler, h1, h2]
  · intro d
    cases d <;> simp [generateScriptHandler]
  · intro us d h
    have hne : ¬(us ≠ "" ∧ jsTrimStr us ≠ "") := by tauto
    cases d <;> simp [generateScriptHandler, hne]

/-- Witness for `c10_user_script_passthrough`: the non-blank user script
`"My ad script"` is passed through with zero model calls, and the blank
user script `"  "` leads to one model call. -/
theorem c10_user_script_passthrough_witness :
    (("My ad script" : String) ≠ "" ∧ jsTrimStr "My ad script" ≠ "" ∧
      generateScriptHandler (some "My ad script") (.error "api down") =
        (.ok "My ad script", 0)) ∧
    ((("  " : String) = "" ∨ jsTrimStr "  " = "") ∧
      (generateScriptHandler (some "  ") (.error "api down")).2 = 1) :=
  ⟨⟨by decide, by decide,
      c10_user_script_passthrough.1 "My ad script" (.error "api down")
        (by decide) (by decide)⟩,
    Or.inr (by decide),
    c10_user_script_passthrough.2.2 "  " (.error "api down") (Or.inr (by decide))⟩

/-! ## Sanitizer invariants

Each regex pass of `cleanScript` establishes a normal form, and the later
passes preserve the normal forms of the earlier ones; together this gives
idempotence (claim C6) and the bracket-removal property (claim C2). -/

/-- No `[` is followed by a `]` on the same line: one more bracket pass
would remove nothing. -/
def brkFree : List Char → Bool
  | [] => true
  | c :: t => if c = '[' ∧ hasRB t = true then false else brkFree t

/-- No two adjacent asterisks: one more bold pass would remove nothing. -/
def starFree : List Char → Bool
  | a :: b :: t => if a = '*' ∧ b = '*' then false else starFree (b :: t)
  | _ => true

/-- No run of three or more newlines: one more collapse pass would change
nothing. -/
def nl3Free : List Char → Bool
  | a :: b :: c :: t =>
    if a = '\n' ∧ b = '\n' ∧ c = '\n' then false else nl3Free (b :: c :: t)
  | _ => true

theorem brkFree_cons_elim {c : Char} {t : List Char}
    (h : brkFree (c :: t) = true) : brkFree t = true := by
  by_cases hc : c = '[' ∧ hasRB t = true
  · simp [brkFree, hc] at h
  · simpa [brkFree, hc] using h

theorem starFree_cons_elim {a : Char} {w : List Char}
    (h : starFree (a :: w) = true) : starFree w = true := by
  match w with
  | [] => rfl
  | b :: t =>
    by_cases hab : a = '*' ∧ b = '*'
    · simp [starFree, hab] at h
    · simpa [starFree, hab] using h

theorem nl3Free_cons_elim {a : Char} {w : List Char}
    (h : nl3Free (a :: w) = true) : nl3Free w = true := by
  match w with
  | [] => rfl
  | [b] => rfl
  | b :: c :: t =>
    by_cases habc : a = '\n' ∧ b = '\n' ∧ c = '\n'
    · simp [nl3Free, habc] at h
    · simpa [nl3Free, habc] using h

theorem starFree_cons_of_ne {c : Char} (w : List Char) (hc : c ≠ '*') :
    starFree (c :: w) = starFree w := by
  match w with
  | [] => rfl
  | b :: t => simp [starFree, hc]

theorem nl3Free_cons₂_of_ne {a b : Char} (w : List Char) (hb : b ≠ '\n') :
    nl3Free (a :: b :: w) = nl3Free (b :: w) := by
  match w with
  | [] => rfl
  | c :: t => simp [nl3Free, hb]

/-! ### The bracket pass -/

theorem hasRB_of_brkFree {c : Char} {t : List Char}
    (h : brkFree (c :: t) = true) (hc : c = '[') : hasRB t = false := by
  cases hB : hasRB t with
  | false => rfl
  | true => simp [brkFree, hc, hB] at h

theorem hasRB_rbGo : ∀ {t : List Char}, hasRB t = false →
    hasRB (rbGo false t) = false := by
  intro t
  induction t with
  | nil => intro _; simp [rbGo, hasRB]
  | cons c t ih =>
    intro h
    by_cases hn : c = '\n'
    · subst hn
      simp [rbGo, hasRB]
    · by_cases hr : c = ']'
      · subst hr
        simp [hasRB, hn] at h
      · have ht : hasRB t = false := by simpa [hasRB, hn, hr] using h
        have hcond : ¬(c = '[' ∧ hasRB t = true) := by simp [ht]
        simp [rbGo, hcond, hasRB, hn, hr]
        exact ih ht

theorem brkFree_rbGo : ∀ (b : Bool) (l : List Char),
    brkFree (rbGo b l) = true := by
  intro b l
  induction l generalizing b with
  | nil => cases b <;> simp [rbGo, brkFree]
  | cons c t ih =>
    cases b with
    | true =>
      by_cases hr : c = ']'
      · simpa [rbGo, hr] using ih false
      · simpa [rbGo, hr] using ih true
    | false =>
      by_cases hcond : c = '[' ∧ hasRB t = true
      · simpa [rbGo, hcond] using ih true
      · rw [show rbGo false (c :: t) = c :: rbGo false t by simp [rbGo, hcond]]
        by_cases hb : c = '['
        · have ht : hasRB t = false := by
            cases hB : hasRB t with
            | false => rfl
            | true => exact absurd ⟨hb, hB⟩ hcond
          have hrb : hasRB (rbGo false t) = false := hasRB_rbGo ht
          simp [brkFree, hrb]
          exact ih false
        · simp [brkFree, hb]
          exact ih false

theorem rbGo_id : ∀ {l : List Char}, brkFree l = true → rbGo false l = l := by
  intro l
  induction l with
  | nil => intro _; rfl
  | cons c t ih =>
    intro h
    by_cases hcond : c = '[' ∧ hasRB t = true
    · simp [brkFree, hcond] at h
    · have ht : brkFree t = true := brkFree_cons_elim h
      simp [rbGo, hcond, ih ht]

/-! ### The bold pass -/

theorem removeStars_id : ∀ {l : List Char}, starFree l = true →
    removeStars l = l := by
  intro l
  induction l using removeStars.induct with
  | case1 a b t hab ih =>
    intro h
    simp [starFree, hab] at h
  | case2 a b t hab ih =>
    intro h
    have ht : starFree (b :: t) = true := starFree_cons_elim h
    simp [removeStars, hab, ih ht]
  | case3 l hl =>
    intro _
    match l, hl with
    | [], _ => rfl
    | [a], _ => rfl
    | a :: b :: t, hl => exact (hl a b t rfl).elim

theorem removeStars_cons_ne {b : Char} (t : List Char) (hb : b ≠ '*') :
    removeStars (b :: t) = b :: removeStars t := by
  match t with
  | [] => rfl
  | c :: t' =>
    have : ¬(b = '*' ∧ c = '*') := fun hc => hb hc.1
    simp [removeStars, this]

theorem starFree_removeStars : ∀ (l : List Char),
    starFree (removeStars l) = true := by
  intro l
  induction l using removeStars.induct with
  | case1 a b t hab ih =>
    simpa [removeStars, hab] using ih
  | case2 a b t hab ih =>
    rw [show removeStars (a :: b :: t) = a :: removeStars (b :: t) by
      simp [removeStars, hab]]
    by_cases ha : a = '*'
    · have hbne : b ≠ '*' := fun hbeq => hab ⟨ha, hbeq⟩
      rw [removeStars_cons_ne t hbne]
      have : ¬(a = '*' ∧ b = '*') := hab
      simpa [starFree, this] using by
        rw [← removeStars_cons_ne t hbne]; exact ih
    · rw [starFree_cons_of_ne _ ha]
      exact ih
  | case3 l hl =>
    match l, hl with
    | [], _ => rfl
    | [a], _ => rfl
    | a :: b :: t, hl => exact (hl a b t rfl).elim

theorem hasRB_removeStars : ∀ {l : List Char}, hasRB l = false →
    hasRB (removeStars l) = false := by
  intro l
  induction l using removeStars.induct with
  | case1 a b t hab ih =>
    intro h
    have ha : a = '*' := hab.1
    have hb : b = '*' := hab.2
    have ht : hasRB t = false := by
      subst ha hb
      simpa [hasRB] using h
    simpa [removeStars, hab] using ih ht
  | case2 a b t hab ih =>
    intro h
    rw [show removeStars (a :: b :: t) = a :: removeStars (b :: t) by
      simp [removeStars, hab]]
    by_cases hn : a = '\n'
    · simp [hasRB, hn]
    · by_cases hr : a = ']'
      · subst hr; simp [hasRB, hn] at h
      · have ht : hasRB (b :: t) = false := by simpa [hasRB, hn, hr] using h
        simp [hasRB, hn, hr]
        exact ih ht
  | case3 l hl =>
    intro h
    match l, hl with
    | [], _ => exact h
    | [a], _ => exact h
    | a :: b :: t, hl => exact (hl a b t rfl).elim

theorem brkFree_removeStars : ∀ {l : List Char}, brkFree l = true →
    brkFree (removeStars l) = true := by
  intro l
  induction l using removeStars.induct with
  | case1 a b t hab ih =>
    intro h
    have ht : brkFree t = true := brkFree_cons_elim (brkFree_cons_elim h)
    simpa [removeStars, hab] using ih ht
  | case2 a b t hab ih =>
    intro h
    rw [show removeStars (a :: b :: t) = a :: removeStars (b :: t) by
      simp [removeStars, hab]]
    have ht : brkFree (b :: t) = true := brkFree_cons_elim h
    by_cases hb : a = '['
    · have hrb : hasRB (b :: t) = false := hasRB_of_brkFree h hb
      have : hasRB (removeStars (b :: t)) = false := hasRB_removeStars hrb
      simp [brkFree, this]
      exact ih ht
    · simp [brkFree, hb]
      exact ih ht
  | case3 l hl =>
    intro h
    match l, hl with
    | [], _ => exact h
    | [a], _ => exact h
    | a :: b :: t, hl => exact (hl a b t rfl).elim

/-! ### The newline-collapse pass -/

theorem cnGo_head_nl : ∀ (l : List Char) (k : ℕ), 1 ≤ k →
    ∃ t, cnGo k l = '\n' :: t := by
  intro l
  induction l with
  | nil =>
    intro k hk
    match k with
    | k + 1 =>
      by_cases h3 : 3 ≤ k + 1
      · exact ⟨['\n'], by simp [cnGo, emitNl, h3]⟩
      · exact ⟨List.replicate k '\n', by simp [cnGo, emitNl, h3, List.replicate_succ]⟩
  | cons c t ih =>
    intro k hk
    by_cases hc : c = '\n'
    · subst hc
      simpa [cnGo] using ih (k + 1) (by omega)
    · by_cases h3 : 3 ≤ k
      · exact ⟨'\n' :: c :: cnGo 0 t, by simp [cnGo, emitNl, hc, h3]⟩
      · match k, hk with
        | k + 1, _ =>
          exact ⟨List.replicate k '\n' ++ c :: cnGo 0 t,
            by simp [cnGo, emitNl, hc, h3, List.replicate_succ]⟩

theorem hasRB_cnGo0 : ∀ (l : List Char), hasRB (cnGo 0 l) = hasRB l := by
  intro l
  induction l with
  | nil => rfl
  | cons c t ih =>
    by_cases hc : c = '\n'
    · subst hc
      obtain ⟨t', ht'⟩ := cnGo_head_nl t 1 (by omega)
      simp [cnGo, ht', hasRB]
    · simp [cnGo, emitNl, hc, hasRB, ih]

theorem brkFree_cons_nl (w : List Char) : brkFree ('\n' :: w) = brkFree w := by
  simp [brkFree, show ¬(('\n' : Char) = '[') by decide]

theorem brkFree_replicate_nl : ∀ (k : ℕ) (z : List Char),
    brkFree (List.replicate k '\n' ++ z) = brkFree z := by
  intro k
  induction k with
  | zero => intro z; rfl
  | succ k ih =>
    intro z
    rw [List.replicate_succ, List.cons_append, brkFree_cons_nl, ih]

theorem brkFree_cnGo : ∀ (l : List Char) (k : ℕ), brkFree l = true →
    brkFree (cnGo k l) = true := by
  intro l
  induction l with
  | nil =>
    intro k _
    by_cases h3 : 3 ≤ k
    · simp [cnGo, emitNl, h3]
      decide
    · simp only [cnGo, emitNl, h3, if_false]
      rw [brkFree_replicate_nl]
      rfl
  | cons c t ih =>
    intro k h
    by_cases hc : c = '\n'
    · subst hc
      rw [brkFree_cons_nl] at h
      simpa [cnGo] using ih (k + 1) h
    · have ht : brkFree t = true := brkFree_cons_elim h
      have hstep : cnGo k (c :: t) = emitNl k (c :: cnGo 0 t) := by
        simp [cnGo, hc]
      rw [hstep]
      have hcz : brkFree (c :: cnGo 0 t) = true := by
        by_cases hb : c = '['
        · have h1 : hasRB t = false := hasRB_of_brkFree h hb
          have h2 : hasRB (cnGo 0 t) = false := by rw [hasRB_cnGo0]; exact h1
          simp [brkFree, h2]
          exact ih 0 ht
        · simp [brkFree, hb]
          exact ih 0 ht
      by_cases h3 : 3 ≤ k
      · simp only [emitNl, h3, if_true]
        rw [show (['\n', '\n'] : List Char) = List.replicate 2 '\n' from rfl,
          brkFree_replicate_nl]
        exact hcz
      · simp only [emitNl, h3, if_false]
        rw [brkFree_replicate_nl]
        exact hcz

theorem starFree_replicate_nl : ∀ (k : ℕ) (z : List Char),
    starFree (List.replicate k '\n' ++ z) = starFree z := by
  intro k
  induction k with
  | zero => intro z; rfl
  | succ k ih =>
    intro z
    rw [List.replicate_succ, List.cons_append,
      starFree_cons_of_ne _ (by decide), ih]

theorem cnGo_head_eq : ∀ (l : List Char), (cnGo 0 l).head? = l.head? := by
  intro l
  match l with
  | [] => rfl
  | c :: t =>
    by_cases hc : c = '\n'
    · subst hc
      obtain ⟨t', ht'⟩ := cnGo_head_nl t 1 (by omega)
      simp [cnGo, ht']
    · simp [cnGo, emitNl, hc]

theorem starFree_pair {a b : Char} {w : List Char}
    (h : starFree (a :: b :: w) = true) (ha : a = '*') : b ≠ '*' := by
  intro hb
  simp [starFree, ha, hb] at h

theorem starFree_cnGo : ∀ (l : List Char) (k : ℕ), starFree l = true →
    starFree (cnGo k l) = true := by
  intro l
  induction l with
  | nil =>
    intro k _
    by_cases h3 : 3 ≤ k
    · simp [cnGo, emitNl, h3]
      decide
    · simp only [cnGo, emitNl, h3, if_false]
      rw [starFree_replicate_nl]
      rfl
  | cons c t ih =>
    intro k h
    by_cases hc : c = '\n'
    · subst hc
      have ht : starFree t = true := starFree_cons_elim h
      simpa [cnGo] using ih (k + 1) ht
    · have ht : starFree t = true := starFree_cons_elim h
      have hstep : cnGo k (c :: t) = emitNl k (c :: cnGo 0 t) := by
        simp [cnGo, hc]
      rw [hstep]
      have hcz : starFree (c :: cnGo 0 t) = true := by
        by_cases hs : c = '*'
        · match t with
          | [] => simp [cnGo, emitNl, starFree]
          | d :: t' =>
            have hd : d ≠ '*' := starFree_pair h hs
            have hhead : (cnGo 0 (d :: t')).head? = some d := by
              rw [cnGo_head_eq]; rfl
            match hz : cnGo 0 (d :: t') with
            | [] => simp [hz] at hhead
            | e :: r =>
              have he : e = d := by simpa [hz] using hhead
              subst he
              have : ¬(c = '*' ∧ e = '*') := fun hp => hd hp.2
              simp only [starFree, this, if_false]
              rw [← hz]
              exact ih 0 ht
        · rw [starFree_cons_of_ne _ hs]
          exact ih 0 ht
      by_cases h3 : 3 ≤ k
      · simp only [emitNl, h3, if_true]
        rw [show (['\n', '\n'] : List Char) = List.replicate 2 '\n' from rfl,
          starFree_replicate_nl]
        exact hcz
      · simp only [emitNl, h3, if_false]
        rw [starFree_replicate_nl]
        exact hcz

theorem nl3Free_cons_head_ne {c : Char} (z : List Char) (hc : c ≠ '\n') :
    nl3Free (c :: z) = nl3Free z := by
  match z with
  | [] => rfl
  | [a] => rfl
  | a :: b :: t => simp [nl3Free, hc]

theorem nl3Free_chunk {c : Char} {z : List Char} (k : ℕ) (hk : k ≤ 2)
    (hc : c ≠ '\n') (h : nl3Free z = true) :
    nl3Free (List.replicate k '\n' ++ c :: z) = true := by
  have h1 : nl3Free (c :: z) = true := by
    rw [nl3Free_cons_head_ne _ hc]; exact h
  have h2 : nl3Free ('\n' :: c :: z) = true := by
    rw [nl3Free_cons₂_of_ne _ hc]; exact h1
  have hor : k = 0 ∨ k = 1 ∨ k = 2 := by omega
  rcases hor with rfl | rfl | rfl
  · exact h1
  · exact h2
  · show nl3Free ('\n' :: '\n' :: c :: z) = true
    rw [show nl3Free ('\n' :: '\n' :: c :: z) =
        if ('\n' : Char) = '\n' ∧ ('\n' : Char) = '\n' ∧ c = '\n' then false
        else nl3Free ('\n' :: c :: z) from rfl,
      if_neg (fun hp => hc hp.2.2)]
    exact h2

theorem nl3Free_cnGo : ∀ (l : List Char) (k : ℕ),
    nl3Free (cnGo k l) = true := by
  intro l
  induction l with
  | nil =>
    intro k
    by_cases h3 : 3 ≤ k
    · simp [cnGo, emitNl, h3]
      decide
    · simp only [cnGo, emitNl, h3, if_false]
      have hor : k = 0 ∨ k = 1 ∨ k = 2 := by omega
      rcases hor with rfl | rfl | rfl <;> decide
  | cons c t ih =>
    intro k
    by_cases hc : c = '\n'
    · subst hc
      simpa [cnGo] using ih (k + 1)
    · have hstep : cnGo k (c :: t) = emitNl k (c :: cnGo 0 t) := by
        simp [cnGo, hc]
      rw [hstep]
      by_cases h3 : 3 ≤ k
      · simp only [emitNl, h3, if_true]
        exact nl3Free_chunk 2 (by omega) hc (ih 0)
      · simp only [emitNl, h3, if_false]
        exact nl3Free_chunk k (by omega) hc (ih 0)

theorem cnGo_id_aux : ∀ (l : List Char) (k : ℕ), k ≤ 2 →
    nl3Free (List.replicate k '\n' ++ l) = true →
    cnGo k l = List.replicate k '\n' ++ l := by
  intro l
  induction l with
  | nil =>
    intro k hk _
    simp [cnGo, emitNl, show ¬(3 ≤ k) by omega]
  | cons c t ih =>
    intro k hk h
    by_cases hc : c = '\n'
    · subst hc
      have hk1 : k ≤ 1 := by
        by_contra hgt
        have hk2 : k = 2 := by omega
        subst hk2
        simp [List.replicate, nl3Free] at h
      have hre : List.replicate k '\n' ++ '\n' :: t =
          List.replicate (k + 1) '\n' ++ t := by
        rw [List.replicate_succ']
        simp
      rw [hre] at h
      have hrec := ih (k + 1) (by omega) h
      have hgoal : cnGo k ('\n' :: t) = cnGo (k + 1) t := by simp [cnGo]
      rw [hgoal, hrec]
      exact hre.symm
    · have hczt : nl3Free (c :: t) = true := by
        have hor : k = 0 ∨ k = 1 ∨ k = 2 := by omega
        rcases hor with rfl | rfl | rfl
        · simpa using h
        · exact nl3Free_cons_elim (by simpa [List.replicate] using h)
        · exact nl3Free_cons_elim (nl3Free_cons_elim
            (by simpa [List.replicate] using h))
      have ht : nl3Free t = true := nl3Free_cons_elim hczt
      have hrec : cnGo 0 t = t := by simpa using ih 0 (by omega) (by simpa)
      simp [cnGo, emitNl, hc, show ¬(3 ≤ k) by omega, hrec]

theorem collapseNewlines_id {l : List Char} (h : nl3Free l = true) :
    collapseNewlines l = l := by
  simpa [collapseNewlines] using cnGo_id_aux l 0 (by omega) (by simpa)

/-! ### The trim pass -/

theorem trimRight_cons_nil {c : Char} {t : List Char} (h : trimRight t = []) :
    trimRight (c :: t) = if isJsSpace c then [] else [c] := by
  simp [trimRight, h]

theorem trimRight_cons_ne {c x : Char} {t xs : List Char}
    (h : trimRight t = x :: xs) : trimRight (c :: t) = c :: x :: xs := by
  simp [trimRight, h]

theorem trimRight_shape (c : Char) (t : List Char) :
    trimRight (c :: t) = [] ∨ ∃ r, trimRight (c :: t) = c :: r := by
  cases h : trimRight t with
  | nil =>
    rw [trimRight_cons_nil h]
    by_cases hs : isJsSpace c
    · left
      simp [hs]
    · right
      exact ⟨[], by simp [hs]⟩
  | cons x xs =>
    right
    exact ⟨x :: xs, trimRight_cons_ne h⟩

theorem trimRight_idem : ∀ (l : List Char),
    trimRight (trimRight l) = trimRight l := by
  intro l
  induction l with
  | nil => rfl
  | cons c t ih =>
    cases h : trimRight t with
    | nil =>
      rw [trimRight_cons_nil h]
      by_cases hs : isJsSpace c
      · rw [if_pos hs]
        rfl
      · rw [if_neg hs,
          trimRight_cons_nil (show trimRight ([] : List Char) = [] from rfl),
          if_neg hs]
    | cons x xs =>
      rw [trimRight_cons_ne h]
      have h2 : trimRight (x :: xs) = x :: xs := by
        rw [← h, ih, h]
      rw [trimRight_cons_ne h2]

theorem dropWhile_head_false {p : Char → Bool} :
    ∀ {l : List Char} {c : Char} {r : List Char},
      l.dropWhile p = c :: r → p c = false := by
  intro l
  induction l with
  | nil => intro c r h; simp at h
  | cons a t ih =>
    intro c r h
    by_cases hp : p a = true
    · rw [List.dropWhile_cons, if_pos hp] at h
      exact ih h
    · rw [List.dropWhile_cons, if_neg hp] at h
      obtain ⟨rfl, -⟩ := List.cons.inj h
      cases hpa : p a with
      | false => rfl
      | true => exact absurd hpa hp

theorem tailClosed_dropWhile (P : List Char → Bool)
    (hP : ∀ c t, P (c :: t) = true → P t = true) (p : Char → Bool) :
    ∀ l, P l = true → P (l.dropWhile p) = true := by
  intro l
  induction l with
  | nil => intro h; exact h
  | cons a t ih =>
    intro h
    by_cases hp : p a = true
    · rw [List.dropWhile_cons, if_pos hp]
      exact ih (hP a t h)
    · rw [List.dropWhile_cons, if_neg hp]
      exact h

theorem hasRB_trimRight : ∀ {t : List Char},
    hasRB (trimRight t) = true → hasRB t = true := by
  intro t
  induction t with
  | nil => intro h; exact h
  | cons c t ih =>
    intro h
    cases htr : trimRight t with
    | nil =>
      rw [trimRight_cons_nil htr] at h
      by_cases hs : isJsSpace c
      · rw [if_pos hs] at h
        exact absurd h (by decide)
      · rw [if_neg hs] at h
        by_cases hn : c = '\n'
        · simp [hasRB, hn] at h
        · by_cases hrb : c = ']'
          · simp [hasRB, hn, hrb]
          · simp [hasRB, hn, hrb] at h
    | cons x xs =>
      rw [trimRight_cons_ne htr] at h
      by_cases hn : c = '\n'
      · simp [hasRB, hn] at h
      · by_cases hrb : c = ']'
        · simp [hasRB, hn, hrb]
        · simp only [hasRB, hn, hrb, if_false] at h ⊢
          exact ih (by rw [htr]; exact h)

theorem brkFree_trimRight : ∀ {l : List Char}, brkFree l = true →
    brkFree (trimRight l) = true := by
  intro l
  induction l with
  | nil => intro h; exact h
  | cons c t ih =>
    intro h
    have ht : brkFree t = true := brkFree_cons_elim h
    cases htr : trimRight t with
    | nil =>
      rw [trimRight_cons_nil htr]
      by_cases hs : isJsSpace c
      · rw [if_pos hs]
        rfl
      · rw [if_neg hs]
        simp [brkFree, hasRB]
    | cons x xs =>
      rw [trimRight_cons_ne htr]
      have hxs : brkFree (x :: xs) = true := by
        rw [← htr]
        exact ih ht
      by_cases hb : c = '['
      · have h1 : hasRB t = false := hasRB_of_brkFree h hb
        have h2 : hasRB (x :: xs) = false := by
          cases hB : hasRB (x :: xs) with
          | false => rfl
          | true =>
            have := hasRB_trimRight (by rw [htr]; exact hB)
            simp [h1] at this
        rw [show brkFree (c :: x :: xs) =
            if c = '[' ∧ hasRB (x :: xs) = true then false
            else brkFree (x :: xs) from rfl, if_neg (by simp [h2])]
        exact hxs
      · simp only [brkFree]
        rw [if_neg (fun hp => hb hp.1)]
        exact hxs

theorem starFree_cond_false {a b : Char} {w : List Char}
    (h : starFree (a :: b :: w) = true) : ¬(a = '*' ∧ b = '*') := by
  intro hp
  simp [starFree, hp] at h

theorem starFree_trimRight : ∀ {l : List Char}, starFree l = true →
    starFree (trimRight l) = true := by
  intro l
  induction l with
  | nil => intro h; exact h
  | cons c t ih =>
    intro h
    have ht : starFree t = true := starFree_cons_elim h
    cases htr : trimRight t with
    | nil =>
      rw [trimRight_cons_nil htr]
      by_cases hs : isJsSpace c
      · rw [if_pos hs]
        rfl
      · rw [if_neg hs]
        rfl
    | cons x xs =>
      rw [trimRight_cons_ne htr]
      have hxs : starFree (x :: xs) = true := by
        rw [← htr]
        exact ih ht
      cases t with
      | nil => simp [trimRight] at htr
      | cons d t' =>
        rcases trimRight_shape d t' with hsh | ⟨r, hsh⟩
        · rw [hsh] at htr
          cases htr
        · rw [hsh] at htr
          obtain ⟨hxd, -⟩ := List.cons.inj htr
          subst hxd
          have hcond : ¬(c = '*' ∧ d = '*') := starFree_cond_false h
          simp only [starFree]
          rw [if_neg hcond]
          exact hxs

theorem nl3Free_cond_false {a b c : Char} {w : List Char}
    (h : nl3Free (a :: b :: c :: w) = true) :
    ¬(a = '\n' ∧ b = '\n' ∧ c = '\n') := by
  intro hp
  simp [nl3Free, hp] at h

theorem nl3Free_trimRight : ∀ {l : List Char}, nl3Free l = true →
    nl3Free (trimRight l) = true := by
  intro l
  induction l with
  | nil => intro h; exact h
  | cons a t ih =>
    intro h
    have ht : nl3Free t = true := nl3Free_cons_elim h
    cases htr : trimRight t with
    | nil =>
      rw [trimRight_cons_nil htr]
      by_cases hs : isJsSpace a
      · rw [if_pos hs]
        rfl
      · rw [if_neg hs]
        rfl
    | cons x xs =>
      rw [trimRight_cons_ne htr]
      have hxxs : nl3Free (x :: xs) = true := by
        rw [← htr]
        exact ih ht
      cases t with
      | nil => simp [trimRight] at htr
      | cons b t₂ =>
        rcases trimRight_shape b t₂ with hsh | ⟨r, hsh⟩
        · rw [hsh] at htr
          cases htr
        · rw [hsh] at htr
          obtain ⟨hxb, hxsr⟩ := List.cons.inj htr
          subst hxb
          subst hxsr
          cases r with
          | nil => rfl
          | cons e ys =>
            have htr₂ : trimRight t₂ = e :: ys := by
              cases h2 : trimRight t₂ with
              | nil =>
                rw [trimRight_cons_nil h2] at hsh
                by_cases hs : isJsSpace b
                · rw [if_pos hs] at hsh
                  cases hsh
                · rw [if_neg hs] at hsh
                  obtain ⟨-, hcontra⟩ := List.cons.inj hsh
                  cases hcontra
              | cons u us =>
                rw [trimRight_cons_ne h2] at hsh
                obtain ⟨-, hsh2⟩ := List.cons.inj hsh
                exact hsh2
            cases t₂ with
            | nil => simp [trimRight] at htr₂
            | cons f t₃ =>
              rcases trimRight_shape f t₃ with hsh₂ | ⟨r₂, hsh₂⟩
              · rw [hsh₂] at htr₂
                cases htr₂
              · rw [hsh₂] at htr₂
                obtain ⟨hfe, -⟩ := List.cons.inj htr₂
                subst hfe
                have hcond : ¬(a = '\n' ∧ b = '\n' ∧ f = '\n') :=
                  nl3Free_cond_false h
                rw [show nl3Free (a :: b :: f :: ys) =
                    if a = '\n' ∧ b = '\n' ∧ f = '\n' then false
                    else nl3Free (b :: f :: ys) from rfl, if_neg hcond]
                exact hxxs

theorem dropWhile_jsTrim (l : List Char) :
    (jsTrim l).dropWhile isJsSpace = jsTrim l := by
  cases hm : l.dropWhile isJsSpace with
  | nil =>
    rw [jsTrim, hm]
    rfl
  | cons c t =>
    have hpc : isJsSpace c = false := dropWhile_head_false hm
    rcases trimRight_shape c t with hsh | ⟨r, hsh⟩
    · rw [jsTrim, hm, hsh]
      rfl
    · rw [jsTrim, hm, hsh, List.dropWhile_cons, hpc]
      simp

theorem jsTrim_idem (l : List Char) : jsTrim (jsTrim l) = jsTrim l := by
  show trimRight ((jsTrim l).dropWhile isJsSpace) = jsTrim l
  rw [dropWhile_jsTrim]
  show trimRight (trimRight (l.dropWhile isJsSpace)) = _
  exact trimRight_idem _

theorem brkFree_jsTrim {l : List Char} (h : brkFree l = true) :
    brkFree (jsTrim l) = true :=
  brkFree_trimRight
    (tailClosed_dropWhile brkFree (fun _ _ hh => brkFree_cons_elim hh) isJsSpace l h)

theorem starFree_jsTrim {l : List Char} (h : starFree l = true) :
    starFree (jsTrim l) = true :=
  starFree_trimRight
    (tailClosed_dropWhile starFree (fun _ _ hh => starFree_cons_elim hh) isJsSpace l h)

theorem nl3Free_jsTrim {l : List Char} (h : nl3Free l = true) :
    nl3Free (jsTrim l) = true :=
  nl3Free_trimRight
    (tailClosed_dropWhile nl3Free (fun _ _ hh => nl3Free_cons_elim hh) isJsSpace l h)

/-! ### The normal form of `cleanScript` -/

theorem cleanScript_brkFree (l : List Char) :
    brkFree (cleanScript l) = true :=
  brkFree_jsTrim (brkFree_cnGo _ 0 (brkFree_removeStars (brkFree_rbGo false l)))

theorem cleanScript_starFree (l : List Char) :
    starFree (cleanScript l) = true :=
  starFree_jsTrim (starFree_cnGo _ 0 (starFree_removeStars _))

theorem cleanScript_nl3Free (l : List Char) :
    nl3Free (cleanScript l) = true :=
  nl3Free_jsTrim (nl3Free_cnGo _ 0)

/-! ## Claim theorems: C2 -/

/-- C2 counterexample: the parenthetical span `(Y)` survives the sanitizer
verbatim — the output of `cleanScript` on `"(Y)"` is `"(Y)"` itself, which
still contains the literal substring `(Y)`; so the sanitizer does not
remove parenthetical asides. -/
theorem c2_sanitizer_counterexample :
    cleanScript ['(', 'Y', ')'] = ['(', 'Y', ')'] := by decide

/-- C2 (amended): the sanitizer of part_001 removes every
bracket-delimited span: in `cleanScript s` no `[` is ever followed by a
`]` on the same line, so no literal `[X]` (X newline-free) remains for any
input; parenthetical spans `(Y)` are not removed. -/
theorem c2_sanitizer_brackets (l : List Char) :
    brkFree (cleanScript l) = true :=
  cleanScript_brkFree l

/-! ## Claim theorems: C6 -/

/-- C6: the sanitizer is idempotent — running `cleanScript` on its own
output changes nothing; it is a pure function of its input. -/
theorem c6_sanitizer_idempotent (l : List Char) :
    cleanScript (cleanScript l) = cleanScript l := by
  have hb := cleanScript_brkFree l
  have hs := cleanScript_starFree l
  have hn := cleanScript_nl3Free l
  show jsTrim (collapseNewlines (removeStars (removeBrackets (cleanScript l)))) =
    cleanScript l
  rw [show removeBrackets (cleanScript l) = cleanScript l from rbGo_id hb,
    removeStars_id hs, collapseNewlines_id hn]
  show jsTrim (jsTrim (collapseNewlines (removeStars (removeBrackets l)))) = _
  exact jsTrim_idem _

end AdForge
